import Mathlib

/-!
Verification development for an Extended Kalman Filter (EKF) estimation core
for a mobile robot (file `ekf.py`): a generic predict/update engine over a
Gaussian belief, a Localization filter (unicycle motion model, line-feature
measurement model against a fixed map with Mahalanobis-gated data
association), and a SLAM filter whose model bodies are elided in the source
and are modelled here from the specification.

Matrices are embedded as Mathlib matrices over `ℝ`; `numpy` row vectors
become `Fin n → ℝ`.  Floating point arithmetic is idealized as exact real
arithmetic.
-/

open Matrix

/-- State vectors (numpy 1-d arrays of length `n`). -/
abbrev Vec (n : ℕ) := Fin n → ℝ

/-- Real matrices indexed by `Fin m × Fin n`. -/
abbrev Mat (m n : ℕ) := Matrix (Fin m) (Fin n) ℝ

namespace EKF

/-- Embedding of `EKF.transition_update` (ekf.py lines 19-27): obtains
`(g, Gx, Gu)` from the transition model and sets the new belief to
`x = g`, `P = Gx P Gxᵀ + dt · Gu Q Guᵀ`.  The model argument is the
concrete subclass's `transition_model` already closed over `self.x`. -/
noncomputable def transition_update {n : ℕ} (P : Mat n n) (Q : Mat 2 2)
    (model : (ℝ × ℝ) → ℝ → Vec n × Mat n n × Mat n 2)
    (u : ℝ × ℝ) (dt : ℝ) : Vec n × Mat n n :=
  let m := model u dt
  (m.1, m.2.1 * P * m.2.1ᵀ + dt • (m.2.2 * Q * m.2.2ᵀ))

/-- A stacked measurement as assembled by `measurement_model`
(ekf.py lines 215-217): `z = np.concatenate(v_list)`,
`R = scipy.linalg.block_diag(*R_list)`, `H = np.vstack(H_list)`.
Index `(i, c)` is component `c` of the `i`-th accepted innovation. -/
structure Stacked (n : ℕ) where
  len : ℕ
  z : Fin len × Fin 2 → ℝ
  R : Matrix (Fin len × Fin 2) (Fin len × Fin 2) ℝ
  H : Matrix (Fin len × Fin 2) (Fin n) ℝ

/-- The valid-measurement branch of `EKF.measurement_update`
(ekf.py lines 54-57): `S = H P Hᵀ + R`, `K = P Hᵀ S⁻¹`,
`x = x + K z`, `P = P - K S Kᵀ`. -/
noncomputable def measurement_update_core {n : ℕ} {ι : Type} [Fintype ι] [DecidableEq ι]
    (x : Vec n) (P : Mat n n)
    (z : ι → ℝ) (R : Matrix ι ι ℝ) (H : Matrix ι (Fin n) ℝ) : Vec n × Mat n n :=
  let S := H * P * Hᵀ + R
  let K := P * Hᵀ * S⁻¹
  (x + K.mulVec z, P - K * S * Kᵀ)

/-- Embedding of `EKF.measurement_update` (ekf.py lines 45-57): if the
measurement model reports no valid measurement (`z is None`) the belief is
returned unchanged, otherwise the Kalman update is applied. -/
noncomputable def measurement_update {n : ℕ} (x : Vec n) (P : Mat n n)
    (meas : Option (Stacked n)) : Vec n × Mat n n :=
  match meas with
  | none => (x, P)
  | some s => measurement_update_core x P s.z s.R s.H

end EKF

/-- Modelled from the spec: `normalize_line_parameters` (imported from
`ExtractLines`, not under src/) canonicalizes line parameters `(alpha, r)`
to the convention `r ≥ 0`; when `r < 0` the sign is flipped (`alpha`
shifted by π, `r` negated) and the flipped flag is reported so the caller
can negate the second row of its Jacobian. -/
noncomputable def normalize_line_parameters (h : Fin 2 → ℝ) : Bool × (Fin 2 → ℝ) :=
  if h 1 < 0 then (true, ![h 0 + Real.pi, -(h 1)]) else (false, h)

/-- An accepted association: innovation vector, its covariance, and the
measurement Jacobian (one entry of `v_list`/`R_list`/`H_list`). -/
abbrev Assoc (n : ℕ) := (Fin 2 → ℝ) × Mat 2 2 × Mat 2 n

/-- One candidate of the inner association loop (ekf.py lines 181-186):
predicted measurement `(h, Hx)`, innovation `v = z_i - h`, innovation
covariance `S = Hx P Hxᵀ + R_i`, squared Mahalanobis distance
`d = vᵀ S⁻¹ v`; the candidate is `(d, v, R_i, Hx)`. -/
noncomputable def candidateOf {n : ℕ} (P : Mat n n)
    (pred : (Fin 2 → ℝ) × Mat 2 n) (zi : Fin 2 → ℝ) (Ri : Mat 2 2) :
    ℝ × Assoc n :=
  let v := zi - pred.1
  let S := pred.2 * P * pred.2ᵀ + Ri
  (v ⬝ᵥ S⁻¹.mulVec v, v, Ri, pred.2)

/-- One step of the running-minimum accumulator of the inner loop
(ekf.py lines 176, 189-193): `d_min` starts at `float("inf")` (modelled as
`none`) and a candidate replaces the current minimum exactly when its
distance is strictly smaller. -/
noncomputable def innerStep {n : ℕ} (acc : Option (ℝ × Assoc n)) (c : ℝ × Assoc n) :
    Option (ℝ × Assoc n) :=
  match acc with
  | none => some c
  | some b => if c.1 < b.1 then some c else some b

/-- The body of the outer association loop for one observation
(ekf.py lines 173-199): run the inner loop over all predicted map lines,
then keep the minimizing candidate iff `d_min < g²`. -/
noncomputable def selectedOf {n : ℕ} (P : Mat n n) (g : ℝ)
    (preds : List ((Fin 2 → ℝ) × Mat 2 n)) (zi : Fin 2 → ℝ) (Ri : Mat 2 2) :
    Option (Assoc n) :=
  match (preds.map (fun pr => candidateOf P pr zi Ri)).foldl innerStep none with
  | none => none
  | some b => if b.1 < g ^ 2 then some b.2 else none

/-- The body of one outer-loop iteration (ekf.py lines 195-199): append
the accepted triple for this observation to the accumulated lists, or
leave them unchanged when the observation is dropped. -/
noncomputable def appendSelected {n : ℕ} (P : Mat n n) (g : ℝ)
    (preds : List ((Fin 2 → ℝ) × Mat 2 n))
    (acc : List (Assoc n)) (p : (Fin 2 → ℝ) × Mat 2 2) : List (Assoc n) :=
  match selectedOf P g preds p.1 p.2 with
  | some t => acc ++ [t]
  | none => acc

/-- The outer association loop (ekf.py lines 162-201): abort with empty
lists when either the observation batch or the map is empty, otherwise
append one accepted triple per gated observation.  Observations and their
covariances are given as parallel lists (the source indexes `rawZ[:, i]`
and `rawR[i]` with `i < len(rawR)`). -/
noncomputable def associateOf {n : ℕ} (P : Mat n n) (g : ℝ)
    (preds : List ((Fin 2 → ℝ) × Mat 2 n))
    (rawZ : List (Fin 2 → ℝ)) (rawR : List (Mat 2 2)) : List (Assoc n) :=
  if rawR.length = 0 ∨ preds.length = 0 then []
  else (rawZ.zip rawR).foldl (appendSelected P g preds) []

/-- Stacking of the accepted associations into one joint measurement
(ekf.py lines 215-217): concatenated innovations, block-diagonal
covariance, vertically stacked Jacobians. -/
noncomputable def stackAssocs {n : ℕ} (l : List (Assoc n)) : EKF.Stacked n where
  len := l.length
  z := fun ic => (l.get ic.1).1 ic.2
  R := fun ic jc => if ic.1 = jc.1 then (l.get ic.1).2.1 ic.2 jc.2 else 0
  H := fun ic j => (l.get ic.1).2.2 ic.2 j

/-- Embedding of the `Localization_EKF` instance state (ekf.py lines
72-78): belief mean and covariance, control noise `Q`, the fixed map as an
ordered list of `(alpha, r)` lines, the base-to-camera transform and the
validation gate `g`. -/
structure Localization_EKF where
  x : Vec 3
  P : Mat 3 3
  Q : Mat 2 2
  map_lines : List (ℝ × ℝ)
  tf_base_to_camera : ℝ × ℝ × ℝ
  g : ℝ

namespace Localization_EKF

/-- Embedding of `Localization_EKF.transition_model` (ekf.py lines
81-116): unicycle dynamics with a straight-motion branch for
`|om| < 1e-10` and a closed-form arc branch otherwise, together with the
Jacobians `Gx` (w.r.t. the state) and `Gu` (w.r.t. the control). -/
noncomputable def transition_model (F : Localization_EKF) (u : ℝ × ℝ) (dt : ℝ) :
    Vec 3 × Mat 3 3 × Mat 3 2 :=
  let V := u.1
  let om := u.2
  let x := F.x 0
  let y := F.x 1
  let th := F.x 2
  let th_n := th + om * dt
  if |om| < 1e-10 then
    (![x + V * Real.cos th * dt, y + V * Real.sin th * dt, th_n],
     !![1, 0, -V * Real.sin th * dt; 0, 1, V * Real.cos th * dt; 0, 0, 1],
     !![Real.cos th * dt, 0; Real.sin th * dt, 0; 0, dt])
  else
    (![x + V / om * (Real.sin th_n - Real.sin th),
       y - V / om * (Real.cos th_n - Real.cos th), th_n],
     !![1, 0, V / om * (Real.cos th_n - Real.cos th);
        0, 1, V / om * (Real.sin th_n - Real.sin th);
        0, 0, 1],
     !![1 / om * (Real.sin th_n - Real.sin th),
        -V / om ^ 2 * (Real.sin th_n - Real.sin th) + V / om * Real.cos th_n * dt;
        -(1 / om) * (Real.cos th_n - Real.cos th),
        V / om ^ 2 * (Real.cos th_n - Real.cos th) + V / om * Real.sin th_n * dt;
        0, dt])

/-- Embedding of `Localization_EKF.map_line_to_predicted_measurement`
(ekf.py lines 125-145): transform a world-frame map line `(alpha, r)` into
the camera frame, with Jacobian `Hx` w.r.t. the pose, then normalize and
negate the second Jacobian row if the line was flipped. -/
noncomputable def map_line_to_predicted_measurement (F : Localization_EKF)
    (m : ℝ × ℝ) : (Fin 2 → ℝ) × Mat 2 3 :=
  let alpha := m.1
  let r := m.2
  let x := F.x 0
  let y := F.x 1
  let th := F.x 2
  let xc := F.tf_base_to_camera.1
  let yc := F.tf_base_to_camera.2.1
  let thc := F.tf_base_to_camera.2.2
  let h : Fin 2 → ℝ :=
    ![alpha - th - thc,
      r - (x * Real.cos alpha + y * Real.sin alpha)
        - (xc * Real.cos (alpha - th) + yc * Real.sin (alpha - th))]
  let Hx : Mat 2 3 :=
    !![0, 0, -1;
       -Real.cos alpha, -Real.sin alpha,
       -xc * Real.sin (alpha - th) + yc * Real.cos (alpha - th)]
  let fh := normalize_line_parameters h
  (fh.2, if fh.1 then Matrix.updateRow Hx 1 (-(Hx 1)) else Hx)

/-- Embedding of `Localization_EKF.associate_measurements` (ekf.py lines
156-201), specialized from the generic loop with the predicted
measurements of the fixed map lines. -/
noncomputable def associate_measurements (F : Localization_EKF)
    (rawZ : List (Fin 2 → ℝ)) (rawR : List (Mat 2 2)) : List (Assoc 3) :=
  associateOf F.P F.g (F.map_lines.map F.map_line_to_predicted_measurement) rawZ rawR

/-- Embedding of `Localization_EKF.measurement_model` (ekf.py lines
205-219): `none` (the `z is None` signal) when no observation was
associated, otherwise the stacked joint measurement. -/
noncomputable def measurement_model (F : Localization_EKF)
    (rawZ : List (Fin 2 → ℝ)) (rawR : List (Mat 2 2)) : Option (EKF.Stacked 3) :=
  let l := F.associate_measurements rawZ rawR
  if l.isEmpty then none else some (stackAssocs l)

/-- The inherited `transition_update` as invoked on a `Localization_EKF`
instance. -/
noncomputable def transition_update (F : Localization_EKF) (u : ℝ × ℝ) (dt : ℝ) :
    Vec 3 × Mat 3 3 :=
  EKF.transition_update F.P F.Q F.transition_model u dt

/-- The inherited `measurement_update` as invoked on a `Localization_EKF`
instance. -/
noncomputable def measurement_update (F : Localization_EKF)
    (rawZ : List (Fin 2 → ℝ)) (rawR : List (Mat 2 2)) : Vec 3 × Mat 3 3 :=
  EKF.measurement_update F.x F.P (F.measurement_model rawZ rawR)

end Localization_EKF

/-- Embedding of the `SLAM_EKF` instance state (ekf.py lines 222-227):
the belief mean carries the robot pose followed by `J` landmark
parameter pairs, total dimension `3 + 2J`. -/
structure SLAM_EKF (J : ℕ) where
  x : Vec (3 + 2 * J)
  P : Mat (3 + 2 * J) (3 + 2 * J)
  Q : Mat 2 2
  tf_base_to_camera : ℝ × ℝ × ℝ
  g : ℝ

namespace SLAM_EKF

/-- Modelled from the spec: the body of
`SLAM_EKF.map_line_to_predicted_measurement` (ekf.py lines 268-289) is
elided in the source (`FILLMEIN` placeholders).  Per the spec it applies
the same camera-frame transform as the Localization filter to the
landmark parameters read from state indices `3+2j, 3+2j+1`; the Jacobian
`Hx` is `2 × (3+2J)` with the Localization robot block in the first three
columns, the partial derivatives of `h` w.r.t. the landmark's own
`(alpha, r)` in columns `3+2j, 3+2j+1` only when `j > 1` (landmarks 0 and
1 are fixed anchors, kept at the skeleton's zero initialization), and
zeros elsewhere; the same normalization/row-flip rule applies. -/
noncomputable def map_line_to_predicted_measurement {J : ℕ} (F : SLAM_EKF J)
    (j : Fin J) : (Fin 2 → ℝ) × Mat 2 (3 + 2 * J) :=
  let alpha := F.x ⟨3 + 2 * j.1, by omega⟩
  let r := F.x ⟨3 + 2 * j.1 + 1, by omega⟩
  let x := F.x ⟨0, by omega⟩
  let y := F.x ⟨1, by omega⟩
  let th := F.x ⟨2, by omega⟩
  let xc := F.tf_base_to_camera.1
  let yc := F.tf_base_to_camera.2.1
  let thc := F.tf_base_to_camera.2.2
  let h : Fin 2 → ℝ :=
    ![alpha - th - thc,
      r - (x * Real.cos alpha + y * Real.sin alpha)
        - (xc * Real.cos (alpha - th) + yc * Real.sin (alpha - th))]
  let Hrobot : Mat 2 3 :=
    !![0, 0, -1;
       -Real.cos alpha, -Real.sin alpha,
       -xc * Real.sin (alpha - th) + yc * Real.cos (alpha - th)]
  let dAlpha : Fin 2 → ℝ :=
    ![1, x * Real.sin alpha - y * Real.cos alpha
        + xc * Real.sin (alpha - th) - yc * Real.cos (alpha - th)]
  let dR : Fin 2 → ℝ := ![0, 1]
  let Hx : Mat 2 (3 + 2 * J) := fun c k =>
    if hk : k.1 < 3 then Hrobot c ⟨k.1, hk⟩
    else if 1 < j.1 ∧ k.1 = 3 + 2 * j.1 then dAlpha c
    else if 1 < j.1 ∧ k.1 = 3 + 2 * j.1 + 1 then dR c
    else 0
  let fh := normalize_line_parameters h
  (fh.2, if fh.1 then Matrix.updateRow Hx 1 (-(Hx 1)) else Hx)

/-- Modelled from the spec: `SLAM_EKF.associate_measurements` (ekf.py
lines 292-298, body elided) follows the identical algorithmic contract as
the Localization filter, with predicted measurements read from the state
landmarks instead of the fixed map. -/
noncomputable def associate_measurements {J : ℕ} (F : SLAM_EKF J)
    (rawZ : List (Fin 2 → ℝ)) (rawR : List (Mat 2 2)) : List (Assoc (3 + 2 * J)) :=
  associateOf F.P F.g
    ((List.finRange J).map F.map_line_to_predicted_measurement) rawZ rawR

/-- Modelled from the spec: `SLAM_EKF.measurement_model` (ekf.py lines
252-262, stacking elided) is identical to the Localization assembly:
`none` when no observation was associated, otherwise the stacked joint
measurement. -/
noncomputable def measurement_model {J : ℕ} (F : SLAM_EKF J)
    (rawZ : List (Fin 2 → ℝ)) (rawR : List (Mat 2 2)) :
    Option (EKF.Stacked (3 + 2 * J)) :=
  let l := F.associate_measurements rawZ rawR
  if l.isEmpty then none else some (stackAssocs l)

/-- The inherited `measurement_update` as invoked on a `SLAM_EKF`
instance. -/
noncomputable def measurement_update {J : ℕ} (F : SLAM_EKF J)
    (rawZ : List (Fin 2 → ℝ)) (rawR : List (Mat 2 2)) :
    Vec (3 + 2 * J) × Mat (3 + 2 * J) (3 + 2 * J) :=
  EKF.measurement_update F.x F.P (F.measurement_model rawZ rawR)

/-- Anchor components of the SLAM state: the entries holding the
parameters of landmarks 0 and 1 (state indices 3 to 6), which the source
comments designate as fixed gauge references. -/
def IsAnchorIdx {J : ℕ} (k : Fin (3 + 2 * J)) : Prop :=
  3 ≤ k.1 ∧ k.1 < 7

end SLAM_EKF

/-- The closed-form arc-integration mean of the spec (section 4.2, curved
branch), as a function of all scalar inputs, used to state that the code's
curved-branch Jacobians are its exact partial derivatives. -/
noncomputable def gArc (x y th V om dt : ℝ) : Fin 3 → ℝ :=
  ![x + V / om * (Real.sin (th + om * dt) - Real.sin th),
    y - V / om * (Real.cos (th + om * dt) - Real.cos th),
    th + om * dt]

/-- The spec's straight-motion contract: for `|om| < 1e-10` the transition
model returns the straight-line mean and the straight-line linearization
Jacobians. -/
noncomputable def StraightBranchSpec (F : Localization_EKF) (u : ℝ × ℝ) (dt : ℝ) : Prop :=
  F.transition_model u dt =
    (![F.x 0 + u.1 * Real.cos (F.x 2) * dt,
       F.x 1 + u.1 * Real.sin (F.x 2) * dt,
       F.x 2 + u.2 * dt],
     !![1, 0, -u.1 * Real.sin (F.x 2) * dt; 0, 1, u.1 * Real.cos (F.x 2) * dt; 0, 0, 1],
     !![Real.cos (F.x 2) * dt, 0; Real.sin (F.x 2) * dt, 0; 0, dt])

/-- The spec's curved-motion mean contract: the returned mean is the
closed-form arc formula. -/
noncomputable def CurvedBranchSpec (F : Localization_EKF) (u : ℝ × ℝ) (dt : ℝ) : Prop :=
  (F.transition_model u dt).1 = gArc (F.x 0) (F.x 1) (F.x 2) u.1 u.2 dt

/-- The spec's curved-motion Jacobian contract: every entry of the
returned `Gx` (columns: x, y, th) and `Gu` (columns: V, om) is the exact
partial derivative of the corresponding component of the arc formula
`gArc` with respect to that variable, evaluated at the current state and
control. -/
noncomputable def CurvedJacobianExact (F : Localization_EKF) (u : ℝ × ℝ) (dt : ℝ) : Prop :=
  ∀ i : Fin 3,
    HasDerivAt (fun s => gArc s (F.x 1) (F.x 2) u.1 u.2 dt i)
      ((F.transition_model u dt).2.1 i 0) (F.x 0) ∧
    HasDerivAt (fun s => gArc (F.x 0) s (F.x 2) u.1 u.2 dt i)
      ((F.transition_model u dt).2.1 i 1) (F.x 1) ∧
    HasDerivAt (fun s => gArc (F.x 0) (F.x 1) s u.1 u.2 dt i)
      ((F.transition_model u dt).2.1 i 2) (F.x 2) ∧
    HasDerivAt (fun s => gArc (F.x 0) (F.x 1) (F.x 2) s u.2 dt i)
      ((F.transition_model u dt).2.2 i 0) u.1 ∧
    HasDerivAt (fun s => gArc (F.x 0) (F.x 1) (F.x 2) u.1 s dt i)
      ((F.transition_model u dt).2.2 i 1) u.2

/-- The per-observation candidate list of the association inner loop: one
`(d, v, R_i, Hx)` tuple per map line, in map order. -/
noncomputable def Localization_EKF.candList (F : Localization_EKF)
    (zi : Fin 2 → ℝ) (Ri : Mat 2 2) : List (ℝ × Assoc 3) :=
  (F.map_lines.map F.map_line_to_predicted_measurement).map
    (fun pr => candidateOf F.P pr zi Ri)

/-- A concrete Localization filter (identity covariances, empty map) used
as a witness instance. -/
noncomputable def Fex : Localization_EKF :=
  { x := ![0, 0, 0], P := 1, Q := 1, map_lines := [], tf_base_to_camera := (0, 0, 0), g := 1 }

/-- A concrete Localization filter with one map line `(alpha, r) = (0, 5)`
and gate `g = 10`, used as a witness instance for data association. -/
noncomputable def Fassoc : Localization_EKF :=
  { x := ![0, 0, 0], P := 1, Q := 1, map_lines := [(0, 5)], tf_base_to_camera := (0, 0, 0), g := 10 }

/-- Mean of the concrete SLAM counterexample state: robot at the origin,
one landmark `(alpha, r) = (0, 5)` stored at state indices 3, 4. -/
noncomputable def xSlam : Vec (3 + 2 * 1) := fun k => if k.1 = 4 then 5 else 0

/-- Covariance of the concrete SLAM counterexample state: identity plus a
cross-covariance of 1/2 between the robot `x` coordinate (index 0) and the
anchor landmark's `alpha` (index 3). -/
noncomputable def Pslam : Mat (3 + 2 * 1) (3 + 2 * 1) := fun i k =>
  if i = k then 1 else if (i.1 = 0 ∧ k.1 = 3) ∨ (i.1 = 3 ∧ k.1 = 0) then 1 / 2 else 0

/-- A concrete one-landmark SLAM filter whose prior covariance correlates
the robot pose with the anchor landmark. -/
noncomputable def Fslam : SLAM_EKF 1 :=
  { x := xSlam, P := Pslam, Q := 1, tf_base_to_camera := (0, 0, 0), g := 10 }

/-- A concrete one-landmark SLAM filter with identity covariance (no
anchor cross-covariance), used as a witness instance. -/
noncomputable def FslamId : SLAM_EKF 1 :=
  { x := xSlam, P := 1, Q := 1, tf_base_to_camera := (0, 0, 0), g := 10 }

/-- A concrete stacked measurement over a 1-dimensional state (one
accepted innovation block, zero innovation, identity covariance, zero
Jacobian), used as a witness instance. -/
noncomputable def sEx : EKF.Stacked 1 :=
  { len := 1, z := 0, R := 1, H := 0 }

/-- The measurement Jacobian produced by the SLAM model at the concrete
counterexample state (robot at origin, landmark `(0, 5)`): the usual robot
block, zero columns for the anchor landmark. -/
noncomputable def Hslam : Mat 2 (3 + 2 * 1) := fun c k =>
  if c.1 = 0 ∧ k.1 = 2 then -1 else if c.1 = 1 ∧ k.1 = 0 then -1 else 0

/-- The inverse innovation covariance of the stacked counterexample
measurement (`S = 2 I`). -/
noncomputable def SeInvCex : Matrix (Fin 1 × Fin 2) (Fin 1 × Fin 2) ℝ :=
  fun ic jc => if ic.2 = jc.2 then 1 / 2 else 0

/-- C1: for every belief `(x, P)`, control `u` and time step `dt`, after
`transition_update(u, dt)` the belief mean equals the propagated mean `g`
returned by the concrete transition model and the covariance equals
`Gx P Gxᵀ + dt Gu Q Guᵀ`, where `(g, Gx, Gu)` is the value of
`transition_model(u, dt)` and `Q` is the process-noise covariance fixed at
construction. -/
theorem transition_update_sets_mean_and_covariance
    (F : Localization_EKF) (u : ℝ × ℝ) (dt : ℝ) :
    F.transition_update u dt =
      ((F.transition_model u dt).1,
        (F.transition_model u dt).2.1 * F.P * ((F.transition_model u dt).2.1)ᵀ
          + dt • ((F.transition_model u dt).2.2 * F.Q * ((F.transition_model u dt).2.2)ᵀ)) :=
  rfl

/-- C2: for every belief `(x, P)` and every present measurement-model
result `(z, R, H)` with `S = H P Hᵀ + R` invertible, `measurement_update`
sets the posterior mean to `x + K z` and the posterior covariance to
`P - K S Kᵀ` with `K = P Hᵀ S⁻¹`, `z` being the already-formed stacked
innovation vector. -/
theorem measurement_update_valid_measurement_spec {n : ℕ} (x : Vec n) (P : Mat n n)
    (s : EKF.Stacked n) (hS : IsUnit (s.H * P * s.Hᵀ + s.R).det) :
    EKF.measurement_update x P (some s) =
      (x + (P * s.Hᵀ * (s.H * P * s.Hᵀ + s.R)⁻¹).mulVec s.z,
        P - (P * s.Hᵀ * (s.H * P * s.Hᵀ + s.R)⁻¹) * (s.H * P * s.Hᵀ + s.R)
          * (P * s.Hᵀ * (s.H * P * s.Hᵀ + s.R)⁻¹)ᵀ) :=
  rfl

/-- Witness for C2 at a concrete one-dimensional instance. -/
theorem measurement_update_valid_measurement_witness :
    IsUnit ((sEx.H * (1 : Mat 1 1) * sEx.Hᵀ + sEx.R).det) ∧
    EKF.measurement_update (0 : Vec 1) (1 : Mat 1 1) (some sEx) =
      ((0 : Vec 1)
          + ((1 : Mat 1 1) * sEx.Hᵀ * (sEx.H * (1 : Mat 1 1) * sEx.Hᵀ + sEx.R)⁻¹).mulVec sEx.z,
        (1 : Mat 1 1)
          - ((1 : Mat 1 1) * sEx.Hᵀ * (sEx.H * (1 : Mat 1 1) * sEx.Hᵀ + sEx.R)⁻¹)
          * (sEx.H * (1 : Mat 1 1) * sEx.Hᵀ + sEx.R)
          * ((1 : Mat 1 1) * sEx.Hᵀ * (sEx.H * (1 : Mat 1 1) * sEx.Hᵀ + sEx.R)⁻¹)ᵀ) :=
  ⟨by simp [sEx], measurement_update_valid_measurement_spec 0 1 sEx (by simp [sEx])⟩

/-- C3: whenever the concrete measurement model reports no valid
measurement (`z` is absent), `measurement_update` is a no-op: the belief
mean and covariance are exactly unchanged. -/
theorem measurement_update_noop_when_invalid (F : Localization_EKF)
    (rawZ : List (Fin 2 → ℝ)) (rawR : List (Mat 2 2))
    (h : F.measurement_model rawZ rawR = none) :
    F.measurement_update rawZ rawR = (F.x, F.P) := by
  unfold Localization_EKF.measurement_update
  rw [h]
  rfl

/-- Witness for C3: a filter with an empty map cannot associate the one
observed line, the model reports no valid measurement, and the belief is
unchanged. -/
theorem measurement_update_noop_witness :
    Fex.measurement_model [![0, 0]] [1] = none ∧
    Fex.measurement_update [![0, 0]] [1] = (Fex.x, Fex.P) :=
  ⟨rfl, measurement_update_noop_when_invalid Fex _ _ rfl⟩

/-- C6: for every symmetric prior covariance and symmetric process noise,
the covariance produced by `transition_update` is exactly symmetric, for
every control (hence in both branches of the transition model). -/
theorem transition_update_covariance_symmetric (F : Localization_EKF)
    (u : ℝ × ℝ) (dt : ℝ) (hP : F.Pᵀ = F.P) (hQ : F.Qᵀ = F.Q) :
    ((F.transition_update u dt).2)ᵀ = (F.transition_update u dt).2 := by
  simp only [Localization_EKF.transition_update, EKF.transition_update]
  simp [Matrix.transpose_add, Matrix.transpose_smul, Matrix.transpose_mul,
    Matrix.transpose_transpose, Matrix.mul_assoc, hP, hQ]

/-- Witness for C6 at a concrete instance with identity covariances. -/
theorem transition_update_covariance_symmetric_witness :
    Fex.Pᵀ = Fex.P ∧ Fex.Qᵀ = Fex.Q ∧
    ((Fex.transition_update (1, 0) 1).2)ᵀ = (Fex.transition_update (1, 0) 1).2 :=
  ⟨by simp [Fex], by simp [Fex],
    transition_update_covariance_symmetric Fex (1, 0) 1 (by simp [Fex]) (by simp [Fex])⟩

/-- C8 counterexample: calling `transition_update` with the non-positive
time step `dt = -1` is not rejected; the belief mean is silently updated
using the invalid `dt` (the first mean component moves from 0 to -1). -/
theorem transition_update_no_dt_validation :
    (Fex.transition_update (1, 0) (-1)).1 0 = -1 ∧ Fex.x 0 = 0 := by
  constructor
  · show (Fex.transition_model (1, 0) (-1)).1 0 = -1
    simp only [Localization_EKF.transition_model, Fex]
    norm_num
  · simp [Fex]

/-- C8 amended: `transition_update` performs no validation of `dt`; for
every non-positive `dt` it silently applies the usual update formulas with
that `dt`. -/
theorem transition_update_applies_formula_for_nonpositive_dt
    (F : Localization_EKF) (u : ℝ × ℝ) (dt : ℝ) (hdt : dt ≤ 0) :
    F.transition_update u dt =
      ((F.transition_model u dt).1,
        (F.transition_model u dt).2.1 * F.P * ((F.transition_model u dt).2.1)ᵀ
          + dt • ((F.transition_model u dt).2.2 * F.Q * ((F.transition_model u dt).2.2)ᵀ)) :=
  rfl

/-- Witness for the amended C8 at `dt = -1`. -/
theorem transition_update_nonpositive_dt_witness :
    (-1 : ℝ) ≤ 0 ∧
    Fex.transition_update (1, 0) (-1) =
      ((Fex.transition_model (1, 0) (-1)).1,
        (Fex.transition_model (1, 0) (-1)).2.1 * Fex.P
            * ((Fex.transition_model (1, 0) (-1)).2.1)ᵀ
          + (-1 : ℝ) • ((Fex.transition_model (1, 0) (-1)).2.2 * Fex.Q
            * ((Fex.transition_model (1, 0) (-1)).2.2)ᵀ)) :=
  ⟨by norm_num,
    transition_update_applies_formula_for_nonpositive_dt Fex (1, 0) (-1) (by norm_num)⟩

/-- C10: for symmetric `P` and `R` with `S = H P Hᵀ + R` invertible, the
posterior covariance `P - K S Kᵀ` computed by the update (with
`K = P Hᵀ S⁻¹`) equals the textbook form `(I - K H) P`. -/
theorem posterior_covariance_textbook_equivalence {n : ℕ} {ι : Type}
    [Fintype ι] [DecidableEq ι] (x : Vec n) (P : Mat n n)
    (z : ι → ℝ) (R : Matrix ι ι ℝ) (H : Matrix ι (Fin n) ℝ)
    (hP : Pᵀ = P) (hR : Rᵀ = R) (hS : IsUnit (H * P * Hᵀ + R).det) :
    (EKF.measurement_update_core x P z R H).2 =
      (1 - P * Hᵀ * (H * P * Hᵀ + R)⁻¹ * H) * P := by
  have hSsymm : (H * P * Hᵀ + R)ᵀ = H * P * Hᵀ + R := by
    simp [Matrix.transpose_add, Matrix.transpose_mul, Matrix.mul_assoc, hP, hR]
  have hKT : (P * Hᵀ * (H * P * Hᵀ + R)⁻¹)ᵀ = (H * P * Hᵀ + R)⁻¹ * (H * P) := by
    rw [Matrix.transpose_mul, Matrix.transpose_nonsing_inv, hSsymm, Matrix.transpose_mul,
      Matrix.transpose_transpose, hP]
  show P - P * Hᵀ * (H * P * Hᵀ + R)⁻¹ * (H * P * Hᵀ + R)
      * (P * Hᵀ * (H * P * Hᵀ + R)⁻¹)ᵀ = _
  rw [hKT, Matrix.sub_mul, Matrix.one_mul]
  congr 1
  rw [Matrix.mul_assoc (P * Hᵀ * (H * P * Hᵀ + R)⁻¹) (H * P * Hᵀ + R),
    ← Matrix.mul_assoc (H * P * Hᵀ + R), Matrix.mul_nonsing_inv _ hS, Matrix.one_mul,
    ← Matrix.mul_assoc]

/-- Witness for C10 at a concrete one-dimensional instance. -/
theorem posterior_covariance_textbook_witness :
    ((1 : Mat 1 1)ᵀ = 1) ∧
    IsUnit (((1 : Mat 1 1) * (1 : Mat 1 1) * (1 : Mat 1 1)ᵀ + 1).det) ∧
    (EKF.measurement_update_core (0 : Vec 1) 1 (0 : Fin 1 → ℝ) 1 1).2 =
      (1 - (1 : Mat 1 1) * (1 : Mat 1 1)ᵀ
        * ((1 : Mat 1 1) * 1 * (1 : Mat 1 1)ᵀ + 1)⁻¹ * 1) * 1 :=
  ⟨Matrix.transpose_one,
    by simp [Matrix.det_fin_one, Matrix.one_apply, Matrix.add_apply],
    posterior_covariance_textbook_equivalence 0 1 0 1 1 Matrix.transpose_one
      Matrix.transpose_one
      (by simp [Matrix.det_fin_one, Matrix.one_apply, Matrix.add_apply])⟩

/-- A nonnegative scalar multiple of a positive semidefinite real matrix
is positive semidefinite. -/
theorem posSemidef_smul_of_nonneg {ι : Type} [Fintype ι] {M : Matrix ι ι ℝ}
    (hM : M.PosSemidef) {c : ℝ} (hc : 0 ≤ c) : (c • M).PosSemidef := by
  refine ⟨?_, fun v => ?_⟩
  · unfold Matrix.IsHermitian
    rw [Matrix.conjTranspose_smul, hM.1]
    simp
  · have h0 := hM.2 v
    have : star v ⬝ᵥ (c • M).mulVec v = c * (star v ⬝ᵥ M.mulVec v) := by
      rw [Matrix.smul_mulVec_assoc, dotProduct_smul, smul_eq_mul]
    rw [this]
    exact mul_nonneg hc h0

/-- C7: for every `dt ≥ 0` and positive semidefinite process noise,
`transition_update` with zero control leaves the belief mean unchanged and
changes the covariance by exactly the additive term `dt · Gu Q Guᵀ` with
`Gu` the zero-velocity straight-branch Jacobian, a positive semidefinite
increment, so the covariance never shrinks in the Loewner order. -/
theorem zero_control_transition_update (F : Localization_EKF) (dt : ℝ)
    (hdt : 0 ≤ dt) (hQ : F.Q.PosSemidef) :
    (F.transition_update (0, 0) dt).1 = F.x ∧
    (F.transition_update (0, 0) dt).2 =
      F.P + dt • (!![Real.cos (F.x 2) * dt, 0; Real.sin (F.x 2) * dt, 0; 0, dt] * F.Q
        * (!![Real.cos (F.x 2) * dt, 0; Real.sin (F.x 2) * dt, 0; 0, dt])ᵀ) ∧
    ((F.transition_update (0, 0) dt).2 - F.P).PosSemidef := by
  have hm : F.transition_model (0, 0) dt =
      (F.x, (1 : Mat 3 3),
        !![Real.cos (F.x 2) * dt, 0; Real.sin (F.x 2) * dt, 0; 0, dt]) := by
    simp only [Localization_EKF.transition_model]
    norm_num
    constructor
    · funext i
      fin_cases i <;> simp
    · ext i j
      fin_cases i <;> fin_cases j <;> simp [Matrix.one_apply, vecHead, vecTail]
  have h1 : (F.transition_update (0, 0) dt).1 = F.x := by
    show (F.transition_model (0, 0) dt).1 = F.x
    rw [hm]
  have h2 : (F.transition_update (0, 0) dt).2 =
      F.P + dt • (!![Real.cos (F.x 2) * dt, 0; Real.sin (F.x 2) * dt, 0; 0, dt] * F.Q
        * (!![Real.cos (F.x 2) * dt, 0; Real.sin (F.x 2) * dt, 0; 0, dt])ᵀ) := by
    show (F.transition_model (0, 0) dt).2.1 * F.P * ((F.transition_model (0, 0) dt).2.1)ᵀ
        + dt • ((F.transition_model (0, 0) dt).2.2 * F.Q * ((F.transition_model (0, 0) dt).2.2)ᵀ)
      = _
    rw [hm]
    simp
  refine ⟨h1, h2, ?_⟩
  rw [h2, add_sub_cancel_left]
  refine posSemidef_smul_of_nonneg ?_ hdt
  have := hQ.mul_mul_conjTranspose_same
    (!![Real.cos (F.x 2) * dt, 0; Real.sin (F.x 2) * dt, 0; 0, dt])
  rwa [Matrix.conjTranspose_eq_transpose_of_trivial] at this

/-- Witness for C7 at a concrete instance with identity noise and `dt = 1`. -/
theorem zero_control_transition_update_witness :
    (0 : ℝ) ≤ 1 ∧ (Fex.Q).PosSemidef ∧
    ((Fex.transition_update (0, 0) 1).1 = Fex.x ∧
      (Fex.transition_update (0, 0) 1).2 =
        Fex.P + (1 : ℝ) • (!![Real.cos (Fex.x 2) * 1, 0; Real.sin (Fex.x 2) * 1, 0; 0, 1] * Fex.Q
          * (!![Real.cos (Fex.x 2) * 1, 0; Real.sin (Fex.x 2) * 1, 0; 0, 1])ᵀ) ∧
      ((Fex.transition_update (0, 0) 1).2 - Fex.P).PosSemidef) :=
  ⟨by norm_num, by rw [show Fex.Q = 1 from rfl]; exact Matrix.PosSemidef.one,
    zero_control_transition_update Fex 1 (by norm_num)
      (by rw [show Fex.Q = 1 from rfl]; exact Matrix.PosSemidef.one)⟩

/-- C4: the localization transition model returns, when `|om| < 1e-10`,
the straight-line mean and straight-line Jacobians, and otherwise the
closed-form arc mean `gArc` with `Gx` and `Gu` equal to the exact analytic
partial derivatives of the arc formula with respect to `(x, y, th)` and
`(V, om)`, including the `1/om²` quotient-rule terms. -/
theorem transition_model_branches (F : Localization_EKF) (u : ℝ × ℝ) (dt : ℝ) :
    (|u.2| < 1e-10 → StraightBranchSpec F u dt) ∧
    (¬ |u.2| < 1e-10 → CurvedBranchSpec F u dt ∧ CurvedJacobianExact F u dt) := by
  constructor
  · intro h
    unfold StraightBranchSpec
    simp only [Localization_EKF.transition_model]
    rw [if_pos h]
  · intro h
    have hom : u.2 ≠ 0 := by
      intro h0
      apply h
      rw [h0]
      norm_num
    have hm : F.transition_model u dt =
        (![F.x 0 + u.1 / u.2 * (Real.sin (F.x 2 + u.2 * dt) - Real.sin (F.x 2)),
           F.x 1 - u.1 / u.2 * (Real.cos (F.x 2 + u.2 * dt) - Real.cos (F.x 2)),
           F.x 2 + u.2 * dt],
         !![1, 0, u.1 / u.2 * (Real.cos (F.x 2 + u.2 * dt) - Real.cos (F.x 2));
            0, 1, u.1 / u.2 * (Real.sin (F.x 2 + u.2 * dt) - Real.sin (F.x 2));
            0, 0, 1],
         !![1 / u.2 * (Real.sin (F.x 2 + u.2 * dt) - Real.sin (F.x 2)),
            -u.1 / u.2 ^ 2 * (Real.sin (F.x 2 + u.2 * dt) - Real.sin (F.x 2))
              + u.1 / u.2 * Real.cos (F.x 2 + u.2 * dt) * dt;
            -(1 / u.2) * (Real.cos (F.x 2 + u.2 * dt) - Real.cos (F.x 2)),
            u.1 / u.2 ^ 2 * (Real.cos (F.x 2 + u.2 * dt) - Real.cos (F.x 2))
              + u.1 / u.2 * Real.sin (F.x 2 + u.2 * dt) * dt;
            0, dt]) := by
      simp only [Localization_EKF.transition_model]
      rw [if_neg h]
    constructor
    · unfold CurvedBranchSpec gArc
      rw [hm]
    · unfold CurvedJacobianExact
      intro i
      rw [hm]
      fin_cases i
      · refine ⟨?_, ?_, ?_, ?_, ?_⟩
        · simp only [gArc]
          simp
          exact (hasDerivAt_id _).add_const _
        · simp only [gArc]
          simp
          exact hasDerivAt_const _ _
        · simp only [gArc]
          simp
          have h1 : HasDerivAt (fun s : ℝ => s + u.2 * dt) 1 (F.x 2) :=
            (hasDerivAt_id _).add_const _
          have h2 := ((Real.hasDerivAt_sin (F.x 2 + u.2 * dt)).comp (F.x 2) h1).sub
            (Real.hasDerivAt_sin (F.x 2))
          have h3 := (h2.const_mul (u.1 / u.2)).const_add (F.x 0)
          convert h3 using 1
          ring
        · simp only [gArc]
          simp
          have h1 := (((hasDerivAt_id u.1).div_const u.2).mul_const
            (Real.sin (F.x 2 + u.2 * dt) - Real.sin (F.x 2))).const_add (F.x 0)
          convert h1 using 1
          ring
        · simp only [gArc]
          simp only [div_mul_eq_mul_div, Matrix.cons_val_zero]
          have hins : HasDerivAt (fun s : ℝ => F.x 2 + s * dt) (1 * dt) u.2 :=
            ((hasDerivAt_id _).mul_const dt).const_add _
          have hsin := (Real.hasDerivAt_sin (F.x 2 + u.2 * dt)).comp u.2 hins
          have hu := (hsin.sub_const (Real.sin (F.x 2))).const_mul u.1
          have hq := hu.div (hasDerivAt_id u.2) hom
          have h5 := hq.const_add (F.x 0)
          convert h5 using 1
          field_simp
          ring
      · refine ⟨?_, ?_, ?_, ?_, ?_⟩
        · simp only [gArc]
          simp
          exact hasDerivAt_const _ _
        · simp only [gArc]
          simp
          exact (hasDerivAt_id _).sub_const _
        · simp only [gArc]
          simp
          have h1 : HasDerivAt (fun s : ℝ => s + u.2 * dt) 1 (F.x 2) :=
            (hasDerivAt_id _).add_const _
          have h2 := ((Real.hasDerivAt_cos (F.x 2 + u.2 * dt)).comp (F.x 2) h1).sub
            (Real.hasDerivAt_cos (F.x 2))
          have h3 := (h2.const_mul (u.1 / u.2)).const_sub (F.x 1)
          convert h3 using 1
          ring
        · simp only [gArc]
          simp
          have h1 := (((hasDerivAt_id u.1).div_const u.2).mul_const
            (Real.cos (F.x 2 + u.2 * dt) - Real.cos (F.x 2))).const_sub (F.x 1)
          convert h1 using 1
          ring
        · simp only [gArc]
          simp only [div_mul_eq_mul_div, Matrix.cons_val_one, Matrix.head_cons]
          have hins : HasDerivAt (fun s : ℝ => F.x 2 + s * dt) (1 * dt) u.2 :=
            ((hasDerivAt_id _).mul_const dt).const_add _
          have hcos := (Real.hasDerivAt_cos (F.x 2 + u.2 * dt)).comp u.2 hins
          have hu := (hcos.sub_const (Real.cos (F.x 2))).const_mul u.1
          have hq := hu.div (hasDerivAt_id u.2) hom
          have h5 := hq.const_sub (F.x 1)
          convert h5 using 1
          field_simp
          ring
      · refine ⟨?_, ?_, ?_, ?_, ?_⟩
        · simp only [gArc]
          simp
          exact hasDerivAt_const _ _
        · simp only [gArc]
          simp
          exact hasDerivAt_const _ _
        · simp only [gArc]
          simp
          exact (hasDerivAt_id _).add_const _
        · simp only [gArc]
          simp
          exact hasDerivAt_const _ _
        · simp only [gArc]
          simp
          have h1 : HasDerivAt (fun s : ℝ => F.x 2 + s * dt) (1 * dt) u.2 :=
            ((hasDerivAt_id _).mul_const dt).const_add _
          convert h1 using 1
          ring

/-- Witness for C4: both branches instantiated at concrete controls. -/
theorem transition_model_branches_witness :
    (|(0 : ℝ)| < 1e-10 ∧ StraightBranchSpec Fex (1, 0) 1) ∧
    (¬ |(1 : ℝ)| < 1e-10 ∧ CurvedBranchSpec Fex (1, 1) 1 ∧ CurvedJacobianExact Fex (1, 1) 1) :=
  ⟨⟨by norm_num, (transition_model_branches Fex (1, 0) 1).1 (by norm_num)⟩,
   ⟨by norm_num, (transition_model_branches Fex (1, 1) 1).2 (by norm_num)⟩⟩

/-- C7 counterexample: with the negative time step `dt = -1` (and identity
process noise) the covariance change of the zero-control update is not
positive semidefinite -- the covariance shrinks -- so the claim fails as
stated for arbitrary `dt`. -/
theorem zero_control_negative_dt_shrinks :
    ¬ ((Fex.transition_update (0, 0) (-1)).2 - Fex.P).PosSemidef := by
  intro hPS
  have key : ∀ M : Mat 3 3, star (![1, 0, 0] : Fin 3 → ℝ) ⬝ᵥ M.mulVec ![1, 0, 0] = M 0 0 := by
    intro M
    simp [Matrix.mulVec, dotProduct, Fin.sum_univ_three]
  have hM : ((Fex.transition_update (0, 0) (-1)).2 - Fex.P) 0 0 = -1 := by
    show ((Fex.transition_model (0, 0) (-1)).2.1 * Fex.P * ((Fex.transition_model (0, 0) (-1)).2.1)ᵀ
        + (-1 : ℝ) • ((Fex.transition_model (0, 0) (-1)).2.2 * Fex.Q
          * ((Fex.transition_model (0, 0) (-1)).2.2)ᵀ) - Fex.P) 0 0 = -1
    simp only [Localization_EKF.transition_model, Fex]
    norm_num [Matrix.sub_apply, Matrix.add_apply, Matrix.smul_apply, Matrix.mul_apply,
      Fin.sum_univ_three, Fin.sum_univ_two, Matrix.one_apply, Matrix.transpose_apply,
      Matrix.vecHead, Matrix.vecTail]
  have hv := hPS.2 ![1, 0, 0]
  rw [key, hM] at hv
  norm_num at hv

/-- The imperative append loop over observations computes a `filterMap`. -/
theorem foldl_appendSelected_eq_filterMap {n : ℕ} (P : Mat n n) (g : ℝ)
    (preds : List ((Fin 2 → ℝ) × Mat 2 n)) :
    ∀ (l : List ((Fin 2 → ℝ) × Mat 2 2)) (acc : List (Assoc n)),
      l.foldl (appendSelected P g preds) acc
        = acc ++ l.filterMap (fun p => selectedOf P g preds p.1 p.2) := by
  intro l
  induction l with
  | nil => intro acc; simp
  | cons a t ih =>
    intro acc
    simp only [List.foldl_cons, List.filterMap_cons]
    cases h : selectedOf P g preds a.1 a.2 with
    | none =>
      rw [show appendSelected P g preds acc a = acc by simp [appendSelected, h], ih]
    | some b =>
      rw [show appendSelected P g preds acc a = acc ++ [b] by simp [appendSelected, h], ih]
      simp

/-- The running strict minimum over a candidate list selects the earliest
element of minimal distance: everything before it is strictly larger,
everything after it is at least as large. -/
theorem foldl_innerStep_first_min {n : ℕ} :
    ∀ (l : List (ℝ × Assoc n)) (b : ℝ × Assoc n),
      ∃ res pre post,
        l.foldl innerStep (some b) = some res ∧
        b :: l = pre ++ res :: post ∧
        (∀ c ∈ pre, res.1 < c.1) ∧
        (∀ c ∈ post, res.1 ≤ c.1) := by
  intro l
  induction l with
  | nil =>
    intro b
    exact ⟨b, [], [], rfl, rfl, by simp, by simp⟩
  | cons c t ih =>
    intro b
    simp only [List.foldl_cons]
    by_cases hcb : c.1 < b.1
    · have hstep : innerStep (some b) c = some c := by simp [innerStep, hcb]
      rw [hstep]
      obtain ⟨res, pre, post, hfold, hdecomp, hpre, hpost⟩ := ih c
      have hresc : res.1 ≤ c.1 := by
        cases pre with
        | nil =>
          have hb : c = res ∧ t = post := by simpa using hdecomp
          exact hb.1 ▸ le_refl _
        | cons p ps =>
          have hcp : c = p := by
            have := hdecomp
            simp only [List.cons_append] at this
            exact (List.cons.injEq c t p _).mp this |>.1
          exact le_of_lt (hcp ▸ hpre p (by simp))
      refine ⟨res, b :: pre, post, hfold, ?_, ?_, hpost⟩
      · rw [List.cons_append, ← hdecomp]
      · intro d hd
        rcases List.mem_cons.mp hd with hdb | hdp
        · exact hdb ▸ lt_of_le_of_lt hresc hcb
        · exact hpre d hdp
    · have hstep : innerStep (some b) c = some b := by simp [innerStep, hcb]
      rw [hstep]
      obtain ⟨res, pre, post, hfold, hdecomp, hpre, hpost⟩ := ih b
      cases pre with
      | nil =>
        have hb : b = res ∧ t = post := by simpa using hdecomp
        refine ⟨res, [], c :: t, hfold, by simp [← hb.1], by simp, ?_⟩
        intro d hd
        rcases List.mem_cons.mp hd with hdc | hdt
        · rw [hdc, ← hb.1]
          exact le_of_not_lt hcb
        · rw [← hb.1]
          rw [← hb.1] at hpost
          exact hpost d (hb.2 ▸ hdt)
      | cons p ps =>
        have hp : b = p ∧ t = ps ++ res :: post := by simpa using hdecomp
        refine ⟨res, b :: c :: ps, post, hfold, ?_, ?_, hpost⟩
        · simp [hp.2]
        · intro d hd
          have hrb : res.1 < b.1 := hp.1 ▸ hpre p (by simp)
          rcases List.mem_cons.mp hd with hdb | hd2
          · exact hdb ▸ hrb
          rcases List.mem_cons.mp hd2 with hdc | hdps
          · exact hdc ▸ lt_of_lt_of_le hrb (le_of_not_lt hcb)
          · exact hpre d (by simp [hdps])

/-- The inner association loop returns the first-encountered nearest
candidate, gated by strict comparison with `g²`. -/
theorem selectedOf_first_nearest {n : ℕ} (P : Mat n n) (g : ℝ)
    (preds : List ((Fin 2 → ℝ) × Mat 2 n)) (zi : Fin 2 → ℝ) (Ri : Mat 2 2)
    (hpreds : preds ≠ []) :
    ∃ chosen pre post,
      preds.map (fun pr => candidateOf P pr zi Ri) = pre ++ chosen :: post ∧
      (∀ c ∈ pre, chosen.1 < c.1) ∧
      (∀ c ∈ post, chosen.1 ≤ c.1) ∧
      selectedOf P g preds zi Ri = (if chosen.1 < g ^ 2 then some chosen.2 else none) := by
  cases hc : preds.map (fun pr => candidateOf P pr zi Ri) with
  | nil =>
    exact absurd (List.map_eq_nil_iff.mp hc) hpreds
  | cons c0 rest =>
    obtain ⟨res, pre, post, hfold, hdecomp, hpre, hpost⟩ := foldl_innerStep_first_min rest c0
    refine ⟨res, pre, post, hdecomp, hpre, hpost, ?_⟩
    unfold selectedOf
    rw [hc]
    simp only [List.foldl_cons]
    have hsome : innerStep none c0 = some c0 := rfl
    rw [hsome, hfold]

/-- C5: for a non-empty observation batch and non-empty map, the
association loop pairs each observation (in order) with the map line
minimizing the squared Mahalanobis distance, ties broken in favor of the
first-encountered map line via strict comparison, and the pair is
appended iff the minimal distance is strictly below `g²` (distances equal
to or above `g²` are dropped without error). -/
theorem associate_measurements_nearest_gated (F : Localization_EKF)
    (rawZ : List (Fin 2 → ℝ)) (rawR : List (Mat 2 2))
    (hI : rawR ≠ []) (hJ : F.map_lines ≠ []) :
    F.associate_measurements rawZ rawR =
      (rawZ.zip rawR).filterMap
        (fun p =>
          selectedOf F.P F.g (F.map_lines.map F.map_line_to_predicted_measurement) p.1 p.2) ∧
    ∀ zi Ri, ∃ chosen pre post,
      F.candList zi Ri = pre ++ chosen :: post ∧
      (∀ c ∈ pre, chosen.1 < c.1) ∧
      (∀ c ∈ post, chosen.1 ≤ c.1) ∧
      selectedOf F.P F.g (F.map_lines.map F.map_line_to_predicted_measurement) zi Ri =
        (if chosen.1 < F.g ^ 2 then some chosen.2 else none) := by
  constructor
  · unfold Localization_EKF.associate_measurements associateOf
    rw [if_neg]
    · exact (foldl_appendSelected_eq_filterMap F.P F.g
        (F.map_lines.map F.map_line_to_predicted_measurement)
        (rawZ.zip rawR) []).trans (List.nil_append _)
    · simp [hI, hJ]
  · intro zi Ri
    exact selectedOf_first_nearest F.P F.g
      (F.map_lines.map F.map_line_to_predicted_measurement) zi Ri (by simp [hJ])

/-- Witness for C5 at a concrete one-observation, one-map-line instance. -/
theorem associate_measurements_nearest_gated_witness :
    ([(1 : Mat 2 2)] ≠ ([] : List (Mat 2 2))) ∧ Fassoc.map_lines ≠ [] ∧
    (Fassoc.associate_measurements [![0, 7]] [1] =
        ([![(0 : ℝ), 7]].zip [(1 : Mat 2 2)]).filterMap
          (fun p => selectedOf Fassoc.P Fassoc.g
            (Fassoc.map_lines.map Fassoc.map_line_to_predicted_measurement) p.1 p.2) ∧
      ∀ zi Ri, ∃ chosen pre post,
        Fassoc.candList zi Ri = pre ++ chosen :: post ∧
        (∀ c ∈ pre, chosen.1 < c.1) ∧
        (∀ c ∈ post, chosen.1 ≤ c.1) ∧
        selectedOf Fassoc.P Fassoc.g
            (Fassoc.map_lines.map Fassoc.map_line_to_predicted_measurement) zi Ri =
          (if chosen.1 < Fassoc.g ^ 2 then some chosen.2 else none)) :=
  ⟨by simp, by simp [Fassoc],
    associate_measurements_nearest_gated Fassoc [![0, 7]] [1] (by simp) (by simp [Fassoc])⟩

/-- The SLAM predicted-measurement Jacobian is zero on every anchor column. -/
theorem slam_pred_anchor_col_zero {J : ℕ} (F : SLAM_EKF J) (j : Fin J) (c : Fin 2)
    (k : Fin (3 + 2 * J)) (hk : SLAM_EKF.IsAnchorIdx k) :
    (F.map_line_to_predicted_measurement j).2 c k = 0 := by
  obtain ⟨hk1, hk2⟩ := hk
  simp only [SLAM_EKF.map_line_to_predicted_measurement]
  split
  · rw [Matrix.updateRow_apply]
    split
    · rw [Pi.neg_apply]
      rw [dif_neg (by omega), if_neg (by rintro ⟨h1, h2⟩; omega),
        if_neg (by rintro ⟨h1, h2⟩; omega)]
      exact neg_zero
    · rw [dif_neg (by omega), if_neg (by rintro ⟨h1, h2⟩; omega),
        if_neg (by rintro ⟨h1, h2⟩; omega)]
  · beta_reduce
    rw [dif_neg (by omega), if_neg (by rintro ⟨h1, h2⟩; omega),
      if_neg (by rintro ⟨h1, h2⟩; omega)]

/-- The running minimum returns an element of the list or the initial accumulator. -/
theorem foldl_innerStep_mem {n : ℕ} :
    ∀ (l : List (ℝ × Assoc n)) (acc : Option (ℝ × Assoc n)) (res : ℝ × Assoc n),
      l.foldl innerStep acc = some res → res ∈ l ∨ acc = some res := by
  intro l
  induction l with
  | nil => intro acc res h; exact Or.inr h
  | cons c t ih =>
    intro acc res h
    simp only [List.foldl_cons] at h
    rcases ih (innerStep acc c) res h with hmem | hacc
    · exact Or.inl (List.mem_cons_of_mem c hmem)
    · cases acc with
      | none =>
        have : c = res := by simpa [innerStep] using hacc
        exact Or.inl (this ▸ List.mem_cons_self c t)
      | some b =>
        by_cases hcb : c.1 < b.1
        · have : c = res := by simpa [innerStep, hcb] using hacc
          exact Or.inl (this ▸ List.mem_cons_self c t)
        · have : b = res := by simpa [innerStep, hcb] using hacc
          exact Or.inr (this ▸ rfl)

/-- An accepted association comes from some predicted map line. -/
theorem selectedOf_mem {n : ℕ} (P : Mat n n) (g : ℝ)
    (preds : List ((Fin 2 → ℝ) × Mat 2 n)) (zi : Fin 2 → ℝ) (Ri : Mat 2 2)
    (t : Assoc n) (h : selectedOf P g preds zi Ri = some t) :
    ∃ pr ∈ preds, t = (candidateOf P pr zi Ri).2 := by
  unfold selectedOf at h
  cases hc : (preds.map (fun pr => candidateOf P pr zi Ri)).foldl innerStep none with
  | none => rw [hc] at h; exact absurd h (by simp)
  | some b =>
    rw [hc] at h
    simp only [] at h
    have hb : t = b.2 := by
      by_cases hgate : b.1 < g ^ 2
      · rw [if_pos hgate] at h
        exact (Option.some.injEq _ _).mp h.symm |>.symm ▸ rfl
      · rw [if_neg hgate] at h
        exact absurd h (by simp)
    rcases foldl_innerStep_mem _ none b hc with hmem | habs
    · obtain ⟨pr, hpr, hcand⟩ := List.mem_map.mp hmem
      exact ⟨pr, hpr, by rw [hb, ← hcand]⟩
    · exact absurd habs (by simp)

/-- Every accepted association carries the Jacobian of some predicted map line. -/
theorem associateOf_mem_H {n : ℕ} (P : Mat n n) (g : ℝ)
    (preds : List ((Fin 2 → ℝ) × Mat 2 n))
    (rawZ : List (Fin 2 → ℝ)) (rawR : List (Mat 2 2)) (t : Assoc n)
    (ht : t ∈ associateOf P g preds rawZ rawR) :
    ∃ pr ∈ preds, t.2.2 = pr.2 := by
  unfold associateOf at ht
  by_cases hguard : rawR.length = 0 ∨ preds.length = 0
  · rw [if_pos hguard] at ht
    exact absurd ht (by simp)
  · rw [if_neg hguard, foldl_appendSelected_eq_filterMap, List.nil_append] at ht
    obtain ⟨p, hp, hsel⟩ := List.mem_filterMap.mp ht
    obtain ⟨pr, hpr, hteq⟩ := selectedOf_mem P g preds p.1 p.2 t hsel
    exact ⟨pr, hpr, by rw [hteq]; rfl⟩

/-- The stacked SLAM measurement Jacobian is zero on every anchor column. -/
theorem slam_stacked_H_anchor_zero {J : ℕ} (F : SLAM_EKF J)
    (rawZ : List (Fin 2 → ℝ)) (rawR : List (Mat 2 2)) (s : EKF.Stacked (3 + 2 * J))
    (hm : F.measurement_model rawZ rawR = some s)
    (ic : Fin s.len × Fin 2) (k : Fin (3 + 2 * J)) (hk : SLAM_EKF.IsAnchorIdx k) :
    s.H ic k = 0 := by
  unfold SLAM_EKF.measurement_model at hm
  by_cases he : (F.associate_measurements rawZ rawR).isEmpty
  · rw [if_pos he] at hm
    exact absurd hm (by simp)
  · rw [if_neg he] at hm
    obtain rfl := (Option.some.injEq _ _).mp hm
    have hget : (stackAssocs (F.associate_measurements rawZ rawR)).H ic k
        = ((F.associate_measurements rawZ rawR).get ic.1).2.2 ic.2 k := rfl
    rw [hget]
    have hmem : (F.associate_measurements rawZ rawR).get ic.1
        ∈ F.associate_measurements rawZ rawR := List.get_mem _ _ _
    obtain ⟨pr, hpr, hHeq⟩ := associateOf_mem_H F.P F.g
      ((List.finRange J).map F.map_line_to_predicted_measurement) rawZ rawR _ hmem
    obtain ⟨j, hj, hpreq⟩ := List.mem_map.mp hpr
    rw [hHeq, ← hpreq]
    exact slam_pred_anchor_col_zero F j ic.2 k hk

/-- C9 amended: the SLAM measurement Jacobians carry zero columns at the
anchor indices, so whenever the prior covariance has zero cross-covariance
between the anchor entries and the rest of the state, every measurement
update leaves the anchor entries of the mean and the anchor rows and
columns of the covariance exactly unchanged. -/
theorem slam_anchors_unchanged {J : ℕ} (F : SLAM_EKF J)
    (rawZ : List (Fin 2 → ℝ)) (rawR : List (Mat 2 2))
    (hP : ∀ a k : Fin (3 + 2 * J),
      SLAM_EKF.IsAnchorIdx a → ¬ SLAM_EKF.IsAnchorIdx k → F.P a k = 0)
    (a : Fin (3 + 2 * J)) (ha : SLAM_EKF.IsAnchorIdx a) :
    (F.measurement_update rawZ rawR).1 a = F.x a ∧
    ∀ b, (F.measurement_update rawZ rawR).2 a b = F.P a b ∧
         (F.measurement_update rawZ rawR).2 b a = F.P b a := by
  unfold SLAM_EKF.measurement_update
  cases hm : F.measurement_model rawZ rawR with
  | none =>
    exact ⟨rfl, fun b => ⟨rfl, rfl⟩⟩
  | some s =>
    have hH : ∀ (ic : Fin s.len × Fin 2) (k : Fin (3 + 2 * J)),
        SLAM_EKF.IsAnchorIdx k → s.H ic k = 0 :=
      fun ic k hk => slam_stacked_H_anchor_zero F rawZ rawR s hm ic k hk
    have hPH : ∀ i, (F.P * s.Hᵀ) a i = 0 := by
      intro i
      rw [Matrix.mul_apply]
      apply Finset.sum_eq_zero
      intro k _
      by_cases hk : SLAM_EKF.IsAnchorIdx k
      · rw [Matrix.transpose_apply, hH i k hk, mul_zero]
      · rw [hP a k ha hk, zero_mul]
    have hK : ∀ i, (F.P * s.Hᵀ * (s.H * F.P * s.Hᵀ + s.R)⁻¹) a i = 0 := by
      intro i
      rw [Matrix.mul_apply]
      apply Finset.sum_eq_zero
      intro j _
      rw [hPH j, zero_mul]
    have hKS : ∀ i, ((F.P * s.Hᵀ * (s.H * F.P * s.Hᵀ + s.R)⁻¹)
        * (s.H * F.P * s.Hᵀ + s.R)) a i = 0 := by
      intro i
      rw [Matrix.mul_apply]
      apply Finset.sum_eq_zero
      intro j _
      rw [hK j, zero_mul]
    refine ⟨?_, ?_⟩
    · show (F.x + (F.P * s.Hᵀ * (s.H * F.P * s.Hᵀ + s.R)⁻¹).mulVec s.z) a = F.x a
      rw [Pi.add_apply, Matrix.mulVec, dotProduct]
      rw [Finset.sum_eq_zero fun i _ => by rw [hK i, zero_mul]]
      exact add_zero _
    · intro b
      constructor
      · show (F.P - (F.P * s.Hᵀ * (s.H * F.P * s.Hᵀ + s.R)⁻¹) * (s.H * F.P * s.Hᵀ + s.R)
            * (F.P * s.Hᵀ * (s.H * F.P * s.Hᵀ + s.R)⁻¹)ᵀ) a b = F.P a b
        rw [Matrix.sub_apply, Matrix.mul_apply]
        rw [Finset.sum_eq_zero fun i _ => by rw [hKS i, zero_mul]]
        exact sub_zero _
      · show (F.P - (F.P * s.Hᵀ * (s.H * F.P * s.Hᵀ + s.R)⁻¹) * (s.H * F.P * s.Hᵀ + s.R)
            * (F.P * s.Hᵀ * (s.H * F.P * s.Hᵀ + s.R)⁻¹)ᵀ) b a = F.P b a
        rw [Matrix.sub_apply, Matrix.mul_apply]
        rw [Finset.sum_eq_zero fun i _ => by
          rw [Matrix.transpose_apply, hK i, mul_zero]]
        exact sub_zero _

/-- Witness for the amended C9 at a concrete uncorrelated instance. -/
theorem slam_anchors_unchanged_witness :
    (∀ a k : Fin (3 + 2 * 1),
      SLAM_EKF.IsAnchorIdx a → ¬ SLAM_EKF.IsAnchorIdx k → FslamId.P a k = 0) ∧
    SLAM_EKF.IsAnchorIdx (⟨3, by norm_num⟩ : Fin (3 + 2 * 1)) ∧
    ((FslamId.measurement_update [] []).1 ⟨3, by norm_num⟩ = FslamId.x ⟨3, by norm_num⟩ ∧
      ∀ b, (FslamId.measurement_update [] []).2 ⟨3, by norm_num⟩ b
              = FslamId.P ⟨3, by norm_num⟩ b ∧
            (FslamId.measurement_update [] []).2 b ⟨3, by norm_num⟩
              = FslamId.P b ⟨3, by norm_num⟩) := by
  have hp : ∀ a k : Fin (3 + 2 * 1),
      SLAM_EKF.IsAnchorIdx a → ¬ SLAM_EKF.IsAnchorIdx k → FslamId.P a k = 0 := by
    intro a k hak hknot
    have hne : a ≠ k := fun he => hknot (he ▸ hak)
    show (1 : Mat (3 + 2 * 1) (3 + 2 * 1)) a k = 0
    exact Matrix.one_apply_ne hne
  have hanch : SLAM_EKF.IsAnchorIdx (⟨3, by norm_num⟩ : Fin (3 + 2 * 1)) :=
    ⟨by norm_num, by norm_num⟩
  exact ⟨hp, hanch, slam_anchors_unchanged FslamId [] [] hp _ hanch⟩


/-- Predicted measurement of the counterexample landmark. -/
theorem slam_pred_at_cex :
    Fslam.map_line_to_predicted_measurement 0 = (![0, 5], Hslam) := by
  unfold SLAM_EKF.map_line_to_predicted_measurement
  have hx3 : Fslam.x ⟨3 + 2 * (0 : Fin 1).1, by omega⟩ = 0 := by
    simp only [Fslam, xSlam]
    norm_num
  have hx4 : Fslam.x ⟨3 + 2 * (0 : Fin 1).1 + 1, by omega⟩ = 5 := by
    simp only [Fslam, xSlam]
    norm_num
  have hx0 : Fslam.x ⟨0, by omega⟩ = 0 := by simp [Fslam, xSlam]
  have hx1 : Fslam.x ⟨1, by omega⟩ = 0 := by simp [Fslam, xSlam]
  have hx2 : Fslam.x ⟨2, by omega⟩ = 0 := by simp [Fslam, xSlam]
  rw [hx3, hx4, hx0, hx1, hx2]
  norm_num [Fslam]
  have hnorm : normalize_line_parameters ![(0 : ℝ), 5] = (false, ![0, 5]) := by
    unfold normalize_line_parameters
    norm_num
  rw [hnorm]
  constructor
  · rfl
  · norm_num
    ext c k
    fin_cases c <;> fin_cases k <;> norm_num [Hslam]

/-- Expansion of a sum over the SLAM state indices at J = 1. -/
theorem sum_fin_five (f : Fin (3 + 2 * 1) → ℝ) :
    ∑ x : Fin (3 + 2 * 1), f x
      = f ⟨0, by omega⟩ + f ⟨1, by omega⟩ + f ⟨2, by omega⟩ + f ⟨3, by omega⟩
        + f ⟨4, by omega⟩ :=
  Fin.sum_univ_five f

/-- Association innovation covariance at the counterexample. -/
theorem slam_S_at_cex :
    Hslam * Fslam.P * Hslamᵀ + 1 = !![2, 0; 0, 2] := by
  ext i j
  fin_cases i <;> fin_cases j <;>
    · simp only [Matrix.add_apply, Matrix.mul_apply, Matrix.transpose_apply, sum_fin_five]
      norm_num [Hslam, Fslam, Pslam, Matrix.one_apply, Fin.ext_iff]

/-- Inverse association innovation covariance at the counterexample. -/
theorem slam_Sinv_at_cex :
    (Hslam * Fslam.P * Hslamᵀ + 1)⁻¹ = !![1 / 2, 0; 0, 1 / 2] := by
  rw [slam_S_at_cex]
  apply Matrix.inv_eq_right_inv
  ext i j
  fin_cases i <;> fin_cases j <;>
    norm_num [Matrix.mul_apply, Fin.sum_univ_two, Matrix.one_apply]

/-- Association candidate at the counterexample: Mahalanobis distance 2. -/
theorem slam_cand_at_cex :
    candidateOf Fslam.P (![(0 : ℝ), 5], Hslam) ![0, 7] 1 = (2, ![0, 2], 1, Hslam) := by
  have hv : ![(0 : ℝ), 7] - ![0, 5] = ![0, 2] := by
    funext i
    fin_cases i <;> norm_num
  have hc : candidateOf Fslam.P (![(0 : ℝ), 5], Hslam) ![0, 7] 1
      = ((![(0 : ℝ), 7] - ![0, 5]) ⬝ᵥ
          ((Hslam * Fslam.P * Hslamᵀ + 1)⁻¹).mulVec (![(0 : ℝ), 7] - ![0, 5]),
         ![(0 : ℝ), 7] - ![0, 5], 1, Hslam) := rfl
  rw [hc, hv, slam_Sinv_at_cex]
  norm_num [Matrix.mulVec, dotProduct, Fin.sum_univ_two]

/-- Predicted-measurement list of the one-landmark counterexample. -/
theorem slam_preds_at_cex :
    (List.finRange 1).map Fslam.map_line_to_predicted_measurement = [(![0, 5], Hslam)] := by
  rw [show List.finRange 1 = [0] from rfl, List.map_cons, List.map_nil, slam_pred_at_cex]

/-- The counterexample observation is accepted (distance 2 below the gate 100). -/
theorem slam_selected_at_cex :
    selectedOf Fslam.P Fslam.g
      ((List.finRange 1).map Fslam.map_line_to_predicted_measurement) ![0, 7] 1
      = some (![0, 2], 1, Hslam) := by
  unfold selectedOf
  rw [slam_preds_at_cex, List.map_cons, List.map_nil, slam_cand_at_cex]
  simp only [List.foldl_cons, List.foldl_nil]
  rw [show innerStep none ((2 : ℝ), ![(0 : ℝ), 2], (1 : Mat 2 2), Hslam)
    = some (2, ![0, 2], 1, Hslam) from rfl]
  norm_num [Fslam]

/-- Association output at the counterexample. -/
theorem slam_assoc_at_cex :
    Fslam.associate_measurements [![0, 7]] [1] = [(![0, 2], 1, Hslam)] := by
  unfold SLAM_EKF.associate_measurements associateOf
  rw [if_neg (by norm_num)]
  show appendSelected Fslam.P Fslam.g
    ((List.finRange 1).map Fslam.map_line_to_predicted_measurement) [] (![0, 7], 1)
    = [(![0, 2], 1, Hslam)]
  unfold appendSelected
  rw [slam_selected_at_cex]
  rfl

/-- Measurement model output at the counterexample. -/
theorem slam_model_at_cex :
    Fslam.measurement_model [![0, 7]] [1] = some (stackAssocs [(![0, 2], 1, Hslam)]) := by
  unfold SLAM_EKF.measurement_model
  rw [slam_assoc_at_cex]
  rfl

/-- Stacked innovation of a singleton association list. -/
theorem stack_single_z {n : ℕ} (t : Assoc n) (ic : Fin (stackAssocs [t]).len × Fin 2) :
    (stackAssocs [t]).z ic = t.1 ic.2 := by
  obtain ⟨⟨i1v, hi⟩, i2⟩ := ic
  cases i1v with
  | zero => rfl
  | succ k => simp [stackAssocs] at hi

/-- Stacked covariance of a singleton association list. -/
theorem stack_single_R {n : ℕ} (t : Assoc n) (ic jc : Fin (stackAssocs [t]).len × Fin 2) :
    (stackAssocs [t]).R ic jc = t.2.1 ic.2 jc.2 := by
  obtain ⟨⟨i1v, hi⟩, i2⟩ := ic
  obtain ⟨⟨j1v, hj⟩, j2⟩ := jc
  cases i1v with
  | zero =>
    cases j1v with
    | zero => simp [stackAssocs]
    | succ k => simp [stackAssocs] at hj
  | succ k => simp [stackAssocs] at hi

/-- Stacked Jacobian of a singleton association list. -/
theorem stack_single_H {n : ℕ} (t : Assoc n) (ic : Fin (stackAssocs [t]).len × Fin 2)
    (k : Fin n) : (stackAssocs [t]).H ic k = t.2.2 ic.2 k := by
  obtain ⟨⟨i1v, hi⟩, i2⟩ := ic
  cases i1v with
  | zero => rfl
  | succ m => simp [stackAssocs] at hi

/-- Expansion of a sum over the singleton stacked measurement index. -/
theorem sum_stack_single {n : ℕ} (t : Assoc n)
    (f : Fin (stackAssocs [t]).len × Fin 2 → ℝ) :
    ∑ x, f x = f (⟨0, by simp [stackAssocs]⟩, 0) + f (⟨0, by simp [stackAssocs]⟩, 1) := by
  rw [Fintype.sum_prod_type]
  exact (Fin.sum_univ_one (fun a => ∑ b : Fin 2, f (a, b))).trans (Fin.sum_univ_two _)


/-- Stacked innovation covariance at the counterexample. -/
theorem slam_Se_at_cex :
    (stackAssocs [(![0, 2], (1 : Mat 2 2), Hslam)]).H * Fslam.P
        * ((stackAssocs [(![0, 2], (1 : Mat 2 2), Hslam)]).H)ᵀ
        + (stackAssocs [(![0, 2], (1 : Mat 2 2), Hslam)]).R
      = fun ic jc => if ic.2 = jc.2 then 2 else 0 := by
  ext ic jc
  simp only [Matrix.add_apply, Matrix.mul_apply, Matrix.transpose_apply, sum_fin_five,
    stack_single_H, stack_single_R]
  obtain ⟨i1, i2⟩ := ic
  obtain ⟨j1, j2⟩ := jc
  fin_cases i2 <;> fin_cases j2 <;>
    norm_num [Hslam, Fslam, Pslam, Matrix.one_apply, Fin.ext_iff]

/-- Inverse stacked innovation covariance at the counterexample. -/
theorem slam_SeInv_at_cex :
    ((stackAssocs [(![0, 2], (1 : Mat 2 2), Hslam)]).H * Fslam.P
        * ((stackAssocs [(![0, 2], (1 : Mat 2 2), Hslam)]).H)ᵀ
        + (stackAssocs [(![0, 2], (1 : Mat 2 2), Hslam)]).R)⁻¹
      = SeInvCex := by
  rw [slam_Se_at_cex]
  apply Matrix.inv_eq_right_inv
  ext ic jc
  simp only [Matrix.mul_apply, sum_stack_single]
  obtain ⟨i1, i2⟩ := ic
  obtain ⟨j1, j2⟩ := jc
  fin_cases i1
  fin_cases j1
  fin_cases i2 <;> fin_cases j2 <;>
    norm_num [SeInvCex, Matrix.one_apply, Fin.ext_iff, Prod.ext_iff]

/-- The posterior mean entry of the anchor landmark parameter moves to -1/2. -/
theorem slam_cex_mean :
    (Fslam.measurement_update [![0, 7]] [1]).1 ⟨3, by omega⟩ = -(1 / 2) := by
  unfold SLAM_EKF.measurement_update
  rw [slam_model_at_cex]
  show (Fslam.x + (Fslam.P * ((stackAssocs [(![0, 2], (1 : Mat 2 2), Hslam)]).H)ᵀ
      * ((stackAssocs [(![0, 2], (1 : Mat 2 2), Hslam)]).H * Fslam.P
          * ((stackAssocs [(![0, 2], (1 : Mat 2 2), Hslam)]).H)ᵀ
        + (stackAssocs [(![0, 2], (1 : Mat 2 2), Hslam)]).R)⁻¹).mulVec
        (stackAssocs [(![0, 2], (1 : Mat 2 2), Hslam)]).z) ⟨3, by omega⟩ = -(1 / 2)
  rw [slam_SeInv_at_cex, Pi.add_apply]
  have hx3 : Fslam.x ⟨3, by omega⟩ = 0 := by
    simp only [Fslam, xSlam]
    norm_num
  rw [hx3]
  simp only [Matrix.mulVec, dotProduct, Matrix.mul_apply, Matrix.transpose_apply,
    sum_stack_single, sum_fin_five, stack_single_z, stack_single_H]
  norm_num [SeInvCex, Hslam, Fslam, Pslam, Fin.ext_iff]

/-- C9 counterexample: with a prior covariance correlating the robot pose
with the anchor landmark (landmark 0), a single accepted observation
changes the anchor entry (state index 3) of the belief mean from 0 to
-1/2, so the anchor does receive a correction. -/
theorem slam_anchor_correction_cex :
    SLAM_EKF.IsAnchorIdx (⟨3, by omega⟩ : Fin (3 + 2 * 1)) ∧
    Fslam.x ⟨3, by omega⟩ = 0 ∧
    (Fslam.measurement_update [![0, 7]] [1]).1 ⟨3, by omega⟩ = -(1 / 2) := by
  refine ⟨⟨by norm_num, by norm_num⟩, ?_, slam_cex_mean⟩
  simp only [Fslam, xSlam]
  norm_num
